import Mathlib

/-!
Verification of the extension identity and dependency-resolution module
(`src/vs/platform/extensionManagement/common/extensionManagementUtil.ts`).

Strings are modelled as lists of characters (`Str`).  JavaScript string
truthiness (`if (s)` is false for the empty string) is modelled by `truthy`.
`compareIgnoreCase` lives in `vs/base/common/strings`, which is not part of
the source excerpt; only its zero-test is used here and it is modelled from
the spec as ASCII-case-insensitive equality (`ignoreCaseEquals`).
-/

abbrev Str := List Char

/-- Modelled from the spec: `compareIgnoreCase` (from `vs/base/common/strings`,
not in the source excerpt) is only ever consumed through `=== 0`; the spec
describes that test as case-insensitive comparison, modelled as equality of
ASCII-lowercased characters. -/
def ignoreCaseEquals (a b : Str) : Bool :=
  a.map Char.toLower == b.map Char.toLower

/-- JavaScript truthiness of an optional string: `undefined` and the empty
string are falsy. -/
def truthy : Option Str → Bool
  | some s => !s.isEmpty
  | none => false

structure ExtensionIdentifier where
  id : Str
  uuid : Option Str
deriving DecidableEq, Repr

/-- `areSameExtensions` from `extensionManagementUtil.ts`:
`if (a.uuid && b.uuid) return a.uuid === b.uuid;`
`if (a.id === b.id) return true;`
`return compareIgnoreCase(a.id, b.id) === 0;` -/
def areSameExtensions (a b : ExtensionIdentifier) : Bool :=
  if truthy a.uuid && truthy b.uuid then a.uuid == b.uuid
  else if a.id == b.id then true
  else ignoreCaseEquals a.id b.id

/-- A character matched by the JavaScript regex metacharacter `.`
(anything except the four line terminators). -/
def jsDot (c : Char) : Bool :=
  c != '\n' && c != '\r' && c.val != 0x2028 && c.val != 0x2029

/-- Splits the longest leading run of ASCII digits (the greedy `\d+`). -/
def digitRun : Str → Str × Str
  | [] => ([], [])
  | c :: cs =>
    if c.isDigit then
      let p := digitRun cs
      (c :: p.1, p.2)
    else ([], c :: cs)

/-- Matches the regex tail `(\d+\.\d+\.\d+)(-(.+))?$` against a string,
returning the captured version (group 2) and optional platform (group 4).
Because each `\d+` is greedy and `\d` cannot match `.` or `-`, the
backtracking search degenerates to this deterministic scan. -/
def versionMatch (t : Str) : Option (Str × Option Str) :=
  match digitRun t with
  | ([], _) => none
  | (d1, '.' :: r1) =>
    match digitRun r1 with
    | ([], _) => none
    | (d2, '.' :: r2) =>
      match digitRun r2 with
      | ([], _) => none
      | (d3, []) => some (d1 ++ '.' :: d2 ++ '.' :: d3, none)
      | (d3, '-' :: g4) =>
        if !g4.isEmpty && g4.all jsDot then
          some (d1 ++ '.' :: d2 ++ '.' :: d3, some g4)
        else none
      | _ => none
    | _ => none
  | _ => none

/-- Splits a string at its first `.` (the part before contains no dot).
This is where `[^.]+\.` must match: `[^.]+` cannot consume a dot, so the
literal `\.` can only consume the first dot of the subject. -/
def splitFirstDot : Str → Option (Str × Str)
  | [] => none
  | c :: cs =>
    if c = '.' then some ([], cs)
    else
      match splitFirstDot cs with
      | some p => some (c :: p.1, p.2)
      | none => none

/-- All ways to split a string as `mid ++ '-' :: tail`, in order of
increasing `mid` length (one entry per `-` occurrence). -/
def dashSplits : Str → List (Str × Str)
  | [] => []
  | c :: cs =>
    let rest := (dashSplits cs).map (fun p => (c :: p.1, p.2))
    if c = '-' then ([], cs) :: rest else rest

/-- Checks one candidate split: the `.+` inside group 1 must be non-empty
and line-terminator free, and the remainder must match the version tail. -/
def checkSplit (pre : Str) (p : Str × Str) : Option (Str × Str × Option Str) :=
  if !p.1.isEmpty && p.1.all jsDot then
    match versionMatch p.2 with
    | some (ver, plat) => some (pre ++ '.' :: p.1, ver, plat)
    | none => none
  else none

/-- Backtracking order of the greedy `.+` in group 1: the longest candidate
(the last entry of `dashSplits`) wins. -/
def pickGreedy (pre : Str) : List (Str × Str) → Option (Str × Str × Option Str)
  | [] => none
  | p :: rest =>
    match pickGreedy pre rest with
    | some r => some r
    | none => checkSplit pre p

/-- The anchored regex `ExtensionKeyRegex` from the source,
`^([^.]+\..+)-(\d+\.\d+\.\d+)(-(.+))?$`, with JavaScript backtracking
semantics; returns groups 1, 2 and 4 on a match. -/
def extensionKeyMatch (s : Str) : Option (Str × Str × Option Str) :=
  match splitFirstDot s with
  | none => none
  | some (pre, rest) =>
    if pre.isEmpty then none else pickGreedy pre (dashSplits rest)

namespace TargetPlatform

/-- `TargetPlatform.UNDEFINED` is the string tag `'undefined'`. -/
def UNDEFINED : Str := "undefined".toList

/-- Modelled from the spec: the `TargetPlatform` enumeration lives in
`vs/platform/extensions/common/extensions.ts`, which is not part of the
source excerpt; the spec describes it as an opaque string-like tag with
values such as `win32-x64`, `darwin-arm64`, `UNKNOWN`, `UNDEFINED`. -/
def values : List Str :=
  ["win32-x64".toList, "win32-ia32".toList, "win32-arm64".toList,
   "linux-x64".toList, "linux-arm64".toList, "linux-armhf".toList,
   "alpine-x64".toList, "alpine-arm64".toList,
   "darwin-x64".toList, "darwin-arm64".toList,
   "web".toList, "universal".toList, "unknown".toList, "undefined".toList]

end TargetPlatform

/-- `ExtensionKey` value: id, version and target platform (the constructor
stores `identifier.id` and defaults `targetPlatform` to `UNDEFINED`). -/
structure ExtensionKey where
  id : Str
  version : Str
  targetPlatform : Str
deriving DecidableEq, Repr

/-- `ExtensionKey.parse`: run the regex; on a match build a key from groups
1, 2 and 4 (`matches[4] || undefined` defaults to `UNDEFINED`), else null. -/
def ExtensionKey.parse (s : Str) : Option ExtensionKey :=
  match extensionKeyMatch s with
  | some (g1, g2, g4) =>
    some ⟨g1, g2, match g4 with | some p => p | none => TargetPlatform.UNDEFINED⟩
  | none => none

/-- `ExtensionKey.toString`: renders `id-version`, appending `-targetPlatform`
only when the platform differs from `UNDEFINED`. -/
def ExtensionKey.toString (k : ExtensionKey) : Str :=
  k.id ++ '-' :: k.version ++
    (if k.targetPlatform = TargetPlatform.UNDEFINED then [] else '-' :: k.targetPlatform)

/-- `ExtensionKey.equals`: identity match (a key carries no uuid, so this is
the id comparison of `areSameExtensions`) plus exact version and platform
equality. -/
def ExtensionKey.equals (k o : ExtensionKey) : Bool :=
  areSameExtensions ⟨k.id, none⟩ ⟨o.id, none⟩ &&
    k.version == o.version && k.targetPlatform == o.targetPlatform

/-- Shape of the version group: three dot-separated non-empty digit runs. -/
def VersionShape (v : Str) : Prop :=
  ∃ d1 d2 d3 : Str, v = d1 ++ '.' :: d2 ++ '.' :: d3 ∧
    d1 ≠ [] ∧ d2 ≠ [] ∧ d3 ≠ [] ∧
    d1.all Char.isDigit = true ∧ d2.all Char.isDigit = true ∧
    d3.all Char.isDigit = true

/-- The language of the anchored pattern
`^([^.]+\..+)-(\d+\.\d+\.\d+)(-(.+))?$`: a dotted id (a non-empty dot-free
part, a dot, a non-empty remainder), a dash, a three-run numeric version and
an optional dash-separated non-empty platform suffix. -/
def MatchesPattern (s : Str) : Prop :=
  ∃ pre mid ver suffix : Str,
    s = pre ++ '.' :: mid ++ '-' :: ver ++ suffix ∧
    pre ≠ [] ∧ '.' ∉ pre ∧ mid ≠ [] ∧ mid.all jsDot = true ∧
    VersionShape ver ∧
    (suffix = [] ∨
      ∃ plat : Str, suffix = '-' :: plat ∧ plat ≠ [] ∧ plat.all jsDot = true)

/-- Shape of an id accepted by group 1 of the regex: a non-empty dot-free
prefix, the first dot, and a non-empty line-terminator-free remainder. -/
def ValidDottedId (idStr : Str) : Prop :=
  ∃ pre m : Str, idStr = pre ++ '.' :: m ∧ pre ≠ [] ∧ '.' ∉ pre ∧
    m ≠ [] ∧ m.all jsDot = true

/-- A platform tag that round-trips: non-empty, line-terminator free, not
itself version-shaped, and no dash-split of it is version-shaped (so the
greedy group 1 cannot extend into it). -/
def platOk (p : Str) : Bool :=
  !p.isEmpty && p.all jsDot && (versionMatch p).isNone &&
    (dashSplits p).all (fun q => (versionMatch q.2).isNone)

/-- One step of `groupByExtension`: scan the existing groups in order; the
first group with a member whose identifier matches joins the new item at its
end (`group.push`), otherwise a fresh singleton group is appended at the end
of the group list. -/
def insertExt {T : Type} (f : T → ExtensionIdentifier) (x : T) :
    List (List T) → List (List T)
  | [] => [[x]]
  | g :: gs =>
    if g.any (fun e => areSameExtensions (f e) (f x)) then (g ++ [x]) :: gs
    else g :: insertExt f x gs

/-- `groupByExtension` from the source: fold the input in order through
`insertExt` starting from no groups. -/
def groupByExtension {T : Type} (extensions : List T)
    (getExtensionIdentifier : T → ExtensionIdentifier) : List (List T) :=
  extensions.foldl (fun acc x => insertExt getExtensionIdentifier x acc) []

/-- Concatenation of the produced groups (used to state that every input
item lands in exactly one group). -/
def joinGroups {T : Type} : List (List T) → List T
  | [] => []
  | g :: gs => g ++ joinGroups gs

/-- Counts the items of the list that have no `areSameExtensions`-matching
item among the previously seen ones (`seen` accumulates left to right). -/
def classCountAux {T : Type} (f : T → ExtensionIdentifier) (seen : List T) :
    List T → Nat
  | [] => 0
  | x :: xs =>
    (if seen.any (fun e => areSameExtensions (f e) (f x)) then 0 else 1) +
      classCountAux f (seen ++ [x]) xs

/-- Number of first representatives of an input list: items with no earlier
`areSameExtensions`-matching item. -/
def classCount {T : Type} (f : T → ExtensionIdentifier) (l : List T) : Nat :=
  classCountAux f [] l

/-- Extension manifest (only the field the resolver reads; the optional
`extensionDependencies ?. slice(0) ?? []` collapses `undefined` to `[]`). -/
structure Manifest where
  extensionDependencies : List Str
deriving DecidableEq, Repr

/-- An installed extension as consumed by `getExtensionDependencies`. -/
structure Extension where
  identifier : ExtensionIdentifier
  manifest : Manifest
deriving DecidableEq, Repr

/-- The `while` loop of `getExtensionDependencies`: pop the front id; if it
is truthy and no accepted entry matches it, look it up among the installed
extensions; a unique match is appended to the result and its declared
dependency ids are enqueued at the tail; otherwise the id is dropped.
Termination: an acceptance strictly shrinks the set of installed extensions
not yet accepted, and every other step shrinks the queue. -/
def depLoop (installed : List Extension) (queue : List Str)
    (deps : List Extension) : List Extension :=
  match queue with
  | [] => deps
  | id :: rest =>
    if h : (!id.isEmpty &&
        deps.all fun e => !areSameExtensions e.identifier ⟨id, none⟩) = true then
      match hf : installed.filter
          (fun e => areSameExtensions e.identifier ⟨id, none⟩) with
      | [e0] =>
        depLoop installed (rest ++ e0.manifest.extensionDependencies) (deps ++ [e0])
      | _ => depLoop installed rest deps
    else depLoop installed rest deps
termination_by ((installed.filter fun e => decide (e ∉ deps)).length, queue.length)
decreasing_by
  · have he0 : e0 ∈ installed.filter
        (fun e => areSameExtensions e.identifier ⟨id, none⟩) := by
      rw [hf]; exact List.mem_singleton.mpr rfl
    rw [List.mem_filter] at he0
    have hnd : e0 ∉ deps := by
      intro hmem
      have hall := (List.all_eq_true.mp (Bool.and_eq_true_iff.mp h).2) e0 hmem
      rw [he0.2] at hall
      simp at hall
    apply Prod.Lex.left
    have hstep : (installed.filter fun e => decide (e ∉ deps ++ [e0])) =
        ((installed.filter fun e => decide (e ∉ deps)).filter
          fun e => decide (e ∉ deps ++ [e0])) := by
      rw [List.filter_filter]
      apply List.filter_congr
      intro x _
      by_cases hx : x ∈ deps
      · have hx2 : x ∈ deps ++ [e0] := List.mem_append_left _ hx
        simp [hx, hx2]
      · simp [hx]
    rw [hstep]
    have he0M : e0 ∈ installed.filter fun e => decide (e ∉ deps) := by
      rw [List.mem_filter]
      exact ⟨he0.1, by simp [hnd]⟩
    obtain ⟨s, t, hM⟩ := List.append_of_mem he0M
    rw [hM, List.filter_append, List.filter_cons_of_neg (by simp)]
    have h1 := List.length_filter_le (fun e => decide (e ∉ deps ++ [e0])) s
    have h2 := List.length_filter_le (fun e => decide (e ∉ deps ++ [e0])) t
    simp only [List.length_append, List.length_cons]
    omega
  · apply Prod.Lex.right
    simp
  · apply Prod.Lex.right
    simp

/-- `getExtensionDependencies` from the source: seed the queue with the
root's declared dependency ids and run the loop with an empty result. -/
def getExtensionDependencies (installedExtensions : List Extension)
    (extensionRoot : Extension) : List Extension :=
  depLoop installedExtensions extensionRoot.manifest.extensionDependencies []

/-- Gallery-record `properties` bag (only the field `create` reads). -/
structure GalleryProps where
  targetPlatform : Option Str
deriving DecidableEq, Repr

/-- Manifest as read by `create` (`manifest.version`; a malformed record may
lack the field, JavaScript then yields `undefined`). -/
structure CreateManifest where
  version : Option Str
deriving DecidableEq, Repr

/-- Modelled from the spec: the input-record shapes of `ExtensionKey.create`
(`ILocalExtension` / `IGalleryExtension` are declared in
`extensionManagement.ts`, not in the source excerpt).  An installed record
carries `manifest.version` and a top-level `targetPlatform`; a remote-catalog
record carries `version` and `properties.targetPlatform`.  Absent fields are
`none` (JavaScript `undefined`). -/
structure ExtensionRecord where
  identifier : ExtensionIdentifier
  manifest : Option CreateManifest
  version : Option Str
  targetPlatform : Option Str
  properties : Option GalleryProps
deriving DecidableEq, Repr

/-- Outcome of `ExtensionKey.create`: either a key whose version/platform
fields may be `undefined` (degenerate when the input was malformed), or the
TypeError thrown by reading `.targetPlatform` of an `undefined` properties
bag. -/
inductive CreateResult where
  | ok (id : Str) (version : Option Str) (targetPlatform : Option Str)
  | typeError
deriving DecidableEq, Repr

/-- `ExtensionKey.create` from the source: shape-probe on the truthiness of
`manifest`; an object is always truthy, so a present manifest selects the
installed shape, otherwise the gallery shape is assumed and
`extension.properties.targetPlatform` is read (throwing when `properties`
is `undefined`). -/
def ExtensionKey.create (e : ExtensionRecord) : CreateResult :=
  match e.manifest with
  | some m => .ok e.identifier.id m.version e.targetPlatform
  | none =>
    match e.properties with
    | some p => .ok e.identifier.id e.version p.targetPlatform
    | none => .typeError

/-- A key whose id contains a dot, but at position 0: group 1 of the regex
cannot match it. -/
def kBad1 : ExtensionKey := ⟨".a".toList, "1.2.3".toList, TargetPlatform.UNDEFINED⟩

/-- A key whose id contains a line-terminator after its first dot: the `.+`
inside group 1 cannot match it. -/
def kBad2 : ExtensionKey :=
  ⟨['a', '.', '\n'], "1.2.3".toList, TargetPlatform.UNDEFINED⟩

/-- Installed fixture: `a.one`, depending on `a.two`. -/
def extOne : Extension := ⟨⟨"a.one".toList, none⟩, ⟨["a.two".toList]⟩⟩

/-- Installed fixture: `a.two`, depending back on `a.one`. -/
def extTwo : Extension := ⟨⟨"a.two".toList, none⟩, ⟨["a.one".toList]⟩⟩

/-- The cyclic installed set of the claim. -/
def installedCyclic : List Extension := [extOne, extTwo]

/-- Ambiguous fixtures: two installed extensions sharing the id `p.q`. -/
def ambOne : Extension := ⟨⟨"p.q".toList, some ['1']⟩, ⟨[]⟩⟩

def ambTwo : Extension := ⟨⟨"p.q".toList, some ['2']⟩, ⟨[]⟩⟩

/-- Installed fixture with an empty id (matched by the empty dependency
id, but the loop's truthiness guard drops the empty id before lookup). -/
def emptyIdExt : Extension := ⟨⟨[], none⟩, ⟨[]⟩⟩

/-- Root fixture declaring the empty string as its only dependency id. -/
def rootEmptyDep : Extension := ⟨⟨"r.t".toList, none⟩, ⟨[[]]⟩⟩

/-- Concrete identifiers used for the relational claims. -/
def idA : ExtensionIdentifier := ⟨['x'], some ['1']⟩

def idB : ExtensionIdentifier := ⟨['x'], none⟩

def idC : ExtensionIdentifier := ⟨['x'], some ['2']⟩

/-- Identifiers whose uuid fields are both present but empty. -/
def idEmptyUuidX : ExtensionIdentifier := ⟨['x'], some []⟩

def idEmptyUuidY : ExtensionIdentifier := ⟨['y'], some []⟩

/-- Modelled from the spec: a record of the installed shape supplies
`manifest.version` and a top-level `targetPlatform`. -/
def isInstalledShape (e : ExtensionRecord) : Bool :=
  (match e.manifest with | some m => m.version.isSome | none => false) &&
    e.targetPlatform.isSome

/-- Modelled from the spec: a record of the remote-catalog shape supplies
`version` and `properties.targetPlatform`. -/
def isGalleryShape (e : ExtensionRecord) : Bool :=
  e.version.isSome &&
    (match e.properties with | some p => p.targetPlatform.isSome | none => false)

/-- Malformed record: no manifest, no version, but a (empty) properties bag. -/
def recBadProps : ExtensionRecord := ⟨⟨"a.b".toList, none⟩, none, none, none, some ⟨none⟩⟩

/-- Malformed record: no manifest and no properties bag at all. -/
def recBare : ExtensionRecord := ⟨⟨"a.b".toList, none⟩, none, none, none, none⟩

/-- C9: `areSameExtensions` is reflexive and symmetric. -/
theorem c9_refl_symm :
    (∀ a : ExtensionIdentifier, areSameExtensions a a = true) ∧
    (∀ a b : ExtensionIdentifier, areSameExtensions a b = areSameExtensions b a) := by
  constructor
  · intro a
    unfold areSameExtensions
    split
    · simp
    · simp
  · intro a b
    unfold areSameExtensions
    rw [Bool.and_comm (truthy b.uuid)]
    split
    · rcases ha : a.uuid with _ | ua <;> rcases hb : b.uuid with _ | ub <;>
        simp [ha, hb, BEq.comm]
    · have hid : (a.id == b.id) = (b.id == a.id) := by
        rcases h : a.id == b.id with _ | _
        · have : a.id ≠ b.id := by simpa using h
          have : b.id ≠ a.id := fun hh => this hh.symm
          simp [this]
        · have : a.id = b.id := by simpa using h
          simp [this]
      rw [hid]
      split
      · rfl
      · unfold ignoreCaseEquals
        rcases h : a.id.map Char.toLower == b.id.map Char.toLower with _ | _
        · have : a.id.map Char.toLower ≠ b.id.map Char.toLower := by simpa using h
          have : b.id.map Char.toLower ≠ a.id.map Char.toLower := fun hh => this hh.symm
          simp [this]
        · have : a.id.map Char.toLower = b.id.map Char.toLower := by simpa using h
          simp [this]

/-- C10: `areSameExtensions` is not transitive: with a = {id x, uuid 1},
b = {id x, no uuid}, c = {id x, uuid 2}, a matches b and b matches c
(by id), but a does not match c (uuids differ). -/
theorem c10_not_transitive :
    areSameExtensions idA idB = true ∧
    areSameExtensions idB idC = true ∧
    areSameExtensions idA idC = false := by
  decide

/-- C3 counterexample: both uuid fields are present (as `some []`, the empty
string) and equal, yet `areSameExtensions` returns `false` because
JavaScript treats the empty string as falsy and falls through to comparing
the (distinct) ids. -/
theorem c3_counterexample :
    idEmptyUuidX.uuid.isSome = true ∧ idEmptyUuidY.uuid.isSome = true ∧
    idEmptyUuidX.uuid = idEmptyUuidY.uuid ∧
    areSameExtensions idEmptyUuidX idEmptyUuidY = false := by
  decide

/-- C3 (amended): when both uuid fields are present AND non-empty, the result
is exactly string equality of the uuids; the id fields are not consulted
(the result is a function of the uuids alone). -/
theorem c3_uuid_authoritative (a b : ExtensionIdentifier) (ua ub : Str)
    (ha : a.uuid = some ua) (hua : ua ≠ [])
    (hb : b.uuid = some ub) (hub : ub ≠ []) :
    areSameExtensions a b = (ua == ub) := by
  unfold areSameExtensions
  rw [ha, hb]
  have hta : truthy (some ua) = true := by
    simp [truthy, List.isEmpty_iff, hua]
  have htb : truthy (some ub) = true := by
    simp [truthy, List.isEmpty_iff, hub]
  simp [hta, htb]

/-- C3 witness: the amended theorem applied at concrete identifiers with equal
non-empty uuids but different ids. -/
theorem c3_witness :
    areSameExtensions ⟨['p'], some ['7']⟩ ⟨['q'], some ['7']⟩ = (['7'] == ['7']) :=
  c3_uuid_authoritative ⟨['p'], some ['7']⟩ ⟨['q'], some ['7']⟩ ['7'] ['7']
    rfl (by decide) rfl (by decide)

/-- Unfolding of the loop on an empty queue. -/
theorem depLoop_nil (installed : List Extension) (deps : List Extension) :
    depLoop installed [] deps = deps := by
  rw [depLoop]

/-- Unfolding of the loop when the popped id is falsy or already accepted. -/
theorem depLoop_skip_guard (installed : List Extension) (id : Str) (rest : List Str)
    (deps : List Extension)
    (h : (!id.isEmpty &&
      deps.all fun e => !areSameExtensions e.identifier ⟨id, none⟩) = false) :
    depLoop installed (id :: rest) deps = depLoop installed rest deps := by
  rw [depLoop, dif_neg (by simp [h])]

/-- Unfolding of the loop when the popped id resolves to a unique installed
extension: it is accepted and its dependency ids are enqueued at the tail. -/
theorem depLoop_accept (installed : List Extension) (id : Str) (rest : List Str)
    (deps : List Extension) (e0 : Extension)
    (h : (!id.isEmpty &&
      deps.all fun e => !areSameExtensions e.identifier ⟨id, none⟩) = true)
    (hfil : installed.filter
      (fun e => areSameExtensions e.identifier ⟨id, none⟩) = [e0]) :
    depLoop installed (id :: rest) deps =
      depLoop installed (rest ++ e0.manifest.extensionDependencies) (deps ++ [e0]) := by
  rw [depLoop, dif_pos h]
  split
  next e1 heq =>
    rw [hfil] at heq
    cases heq
    rfl
  next hno =>
    exfalso
    exact hno e0 hfil

/-- Unfolding of the loop when the popped id matches zero or several
installed extensions: the id is silently dropped. -/
theorem depLoop_skip_nomatch (installed : List Extension) (id : Str) (rest : List Str)
    (deps : List Extension)
    (h : (!id.isEmpty &&
      deps.all fun e => !areSameExtensions e.identifier ⟨id, none⟩) = true)
    (hlen : (installed.filter
      (fun e => areSameExtensions e.identifier ⟨id, none⟩)).length ≠ 1) :
    depLoop installed (id :: rest) deps = depLoop installed rest deps := by
  rw [depLoop, dif_pos h]
  split
  next e1 heq =>
    exfalso
    apply hlen
    rw [heq]
    rfl
  next hno =>
    rfl

/-- Evaluation of the resolver on the cyclic example: the root comes back. -/
theorem depCycleEval :
    getExtensionDependencies installedCyclic extOne = [extTwo, extOne] := by
  show depLoop installedCyclic ["a.two".toList] [] = [extTwo, extOne]
  rw [depLoop_accept installedCyclic ("a.two".toList) [] [] extTwo (by decide) (by decide)]
  show depLoop installedCyclic ["a.one".toList] [extTwo] = [extTwo, extOne]
  rw [depLoop_accept installedCyclic ("a.one".toList) [] [extTwo] extOne (by decide) (by decide)]
  show depLoop installedCyclic ["a.two".toList] [extTwo, extOne] = [extTwo, extOne]
  rw [depLoop_skip_guard installedCyclic ("a.two".toList) [] [extTwo, extOne] (by decide)]
  rw [depLoop_nil]

/-- C1 counterexample: with the cyclic installed set `a.one` (deps
`[a.two]`) and `a.two` (deps `[a.one]`), resolving from `a.one` does
include the root `a.one` itself, and the result is not `[a.two]`. -/
theorem c1_counterexample :
    extOne ∈ getExtensionDependencies installedCyclic extOne ∧
    getExtensionDependencies installedCyclic extOne ≠ [extTwo] := by
  rw [depCycleEval]
  exact ⟨by decide, by decide⟩

/-- C1 (amended): the resolver has no root-exclusion check, so a cyclically
reachable root is accepted like any other dependency: with installed
extensions `a.one` (deps `[a.two]`) and `a.two` (deps `[a.one]`), resolving
from `a.one` returns `[a.two, a.one]`, with the root as final element. -/
theorem c1_cyclic_root_included :
    getExtensionDependencies installedCyclic extOne = [extTwo, extOne] ∧
    extOne ∈ getExtensionDependencies installedCyclic extOne := by
  refine ⟨depCycleEval, ?_⟩
  rw [depCycleEval]
  decide

/-- Invariant of the resolver loop: starting from a duplicate-free result
list whose members are installed, the final result is duplicate-free and
all its members are installed. -/
theorem depLoop_nodup_subset (installed : List Extension) :
    ∀ (queue : List Str) (deps : List Extension), deps.Nodup →
      (∀ e ∈ deps, e ∈ installed) →
      (depLoop installed queue deps).Nodup ∧
        ∀ e ∈ depLoop installed queue deps, e ∈ installed := by
  intro queue deps
  induction queue, deps using depLoop.induct installed with
  | case1 deps =>
    intro hnd hsub
    rw [depLoop_nil]
    exact ⟨hnd, hsub⟩
  | case2 deps id rest h e0 hf ih =>
    intro hnd hsub
    rw [depLoop_accept installed id rest deps e0 h hf]
    have he0 : e0 ∈ installed.filter
        (fun e => areSameExtensions e.identifier ⟨id, none⟩) := by
      rw [hf]; exact List.mem_singleton.mpr rfl
    rw [List.mem_filter] at he0
    have hnotin : e0 ∉ deps := by
      intro hmem
      have hall := (List.all_eq_true.mp (Bool.and_eq_true_iff.mp h).2) e0 hmem
      rw [he0.2] at hall
      simp at hall
    apply ih
    · have hperm : List.Perm (deps ++ [e0]) (e0 :: deps) :=
        List.perm_append_singleton e0 deps
      rw [hperm.nodup_iff]
      exact List.nodup_cons.mpr ⟨hnotin, hnd⟩
    · intro e he
      rcases List.mem_append.mp he with h1 | h1
      · exact hsub e h1
      · rw [List.mem_singleton.mp h1]
        exact he0.1
  | case3 deps id rest h hno ih =>
    intro hnd hsub
    have hlen : (installed.filter
        (fun e => areSameExtensions e.identifier ⟨id, none⟩)).length ≠ 1 := by
      intro hl
      obtain ⟨a, ha⟩ := List.length_eq_one.mp hl
      exact hno a ha
    rw [depLoop_skip_nomatch installed id rest deps h hlen]
    exact ih hnd hsub
  | case4 deps id rest h ih =>
    intro hnd hsub
    rw [depLoop_skip_guard installed id rest deps (by simpa using h)]
    exact ih hnd hsub

/-- C7: the skip-if-already-accepted check bounds the number of acceptances
by the number of installed extensions, for every input (the loop is a total
function, so it terminates on every input, cyclic manifests included). -/
theorem c7_termination_bound (installed : List Extension) (extensionRoot : Extension) :
    (getExtensionDependencies installed extensionRoot).length ≤ installed.length := by
  have h := depLoop_nodup_subset installed
    extensionRoot.manifest.extensionDependencies [] List.nodup_nil (by simp)
  exact List.Subperm.length_le
    (List.subperm_of_subset h.1 (fun a ha => h.2 a ha))

/-- C8: for a popped dependency id that is truthy and not already accepted:
a unique installed match is appended to the result with its declared
dependency ids enqueued at the tail; zero or several matches silently drop
the id, leaving the result unchanged (the loop is a total function, so no
failure is possible). -/
theorem c8_unique_match_or_drop (installed : List Extension) (id : Str)
    (rest : List Str) (deps : List Extension)
    (hid : id ≠ [])
    (hacc : (deps.all fun e => !areSameExtensions e.identifier ⟨id, none⟩) = true) :
    (∀ e0 : Extension,
      installed.filter (fun e => areSameExtensions e.identifier ⟨id, none⟩) = [e0] →
        depLoop installed (id :: rest) deps =
          depLoop installed (rest ++ e0.manifest.extensionDependencies) (deps ++ [e0])) ∧
    ((installed.filter (fun e => areSameExtensions e.identifier ⟨id, none⟩)).length ≠ 1 →
      depLoop installed (id :: rest) deps = depLoop installed rest deps) := by
  have hguard : (!id.isEmpty &&
      deps.all fun e => !areSameExtensions e.identifier ⟨id, none⟩) = true := by
    rw [Bool.and_eq_true_iff]
    refine ⟨?_, hacc⟩
    simp [List.isEmpty_iff, hid]
  exact ⟨fun e0 hf => depLoop_accept installed id rest deps e0 hguard hf,
    fun hl => depLoop_skip_nomatch installed id rest deps hguard hl⟩

/-- C8 witness: with two installed extensions both matching the id `p.q`
(same id, different uuids), the ambiguous id is silently dropped. -/
theorem c8_witness :
    "p.q".toList ≠ [] ∧
    (([] : List Extension).all
      fun e => !areSameExtensions e.identifier ⟨"p.q".toList, none⟩) = true ∧
    depLoop [ambOne, ambTwo] ["p.q".toList] [] = depLoop [ambOne, ambTwo] [] [] := by
  refine ⟨by decide, by decide, ?_⟩
  exact (c8_unique_match_or_drop [ambOne, ambTwo] ("p.q".toList) [] [] (by decide)
    (by decide)).2 (by decide)

/-- C4 counterexample: `recBadProps` conforms to neither input shape
(no manifest, no version), yet `create` neither throws nor reports: it
silently returns a degenerate key whose version is `undefined`. -/
theorem c4_counterexample :
    isInstalledShape recBadProps = false ∧
    isGalleryShape recBadProps = false ∧
    ExtensionKey.create recBadProps = CreateResult.ok ("a.b".toList) none none := by
  decide

/-- C4 (amended): `create` performs no validation: with no manifest it
throws a TypeError exactly when `properties` is also absent (failing fast,
though with a generic TypeError rather than a descriptive message); when a
properties bag is present it silently returns a key built from whatever
fields exist, degenerate if the version is absent. -/
theorem c4_create_no_validation (e : ExtensionRecord) (hm : e.manifest = none) :
    (e.properties = none → ExtensionKey.create e = CreateResult.typeError) ∧
    (∀ p, e.properties = some p →
      ExtensionKey.create e = CreateResult.ok e.identifier.id e.version p.targetPlatform) := by
  constructor
  · intro hp
    simp [ExtensionKey.create, hm, hp]
  · intro p hp
    simp [ExtensionKey.create, hm, hp]

/-- C4 witness: the amended theorem applied to the two malformed records. -/
theorem c4_witness :
    ExtensionKey.create recBare = CreateResult.typeError ∧
    ExtensionKey.create recBadProps =
      CreateResult.ok recBadProps.identifier.id recBadProps.version none :=
  ⟨(c4_create_no_validation recBare rfl).1 rfl,
   (c4_create_no_validation recBadProps rfl).2 ⟨none⟩ rfl⟩

/-- A permutation does not change whether some element satisfies p. -/
theorem perm_any {T : Type} {l1 l2 : List T} (h : List.Perm l1 l2) (p : T → Bool) :
    l1.any p = l2.any p := by
  cases h2 : l2.any p
  · rw [List.any_eq_false] at h2 ⊢
    intro x hx
    exact h2 x (h.mem_iff.mp hx)
  · rw [List.any_eq_true] at h2 ⊢
    obtain ⟨x, hx, hpx⟩ := h2
    exact ⟨x, h.mem_iff.mpr hx, hpx⟩

/-- Inserting an item adds it at the end of exactly one group. -/
theorem joinGroups_insertExt {T : Type} (f : T → ExtensionIdentifier) (x : T) :
    ∀ acc : List (List T),
      List.Perm (joinGroups (insertExt f x acc)) (joinGroups acc ++ [x])
  | [] => by simp [insertExt, joinGroups]
  | g :: gs => by
    rw [insertExt]
    split
    · show List.Perm ((g ++ [x]) ++ joinGroups gs) ((g ++ joinGroups gs) ++ [x])
      rw [List.append_assoc, List.append_assoc, List.singleton_append]
      exact ((List.perm_append_singleton x (joinGroups gs)).symm).append_left g
    · have ih := joinGroups_insertExt f x gs
      show List.Perm (g ++ joinGroups (insertExt f x gs)) ((g ++ joinGroups gs) ++ [x])
      rw [List.append_assoc]
      exact ih.append_left g

/-- The number of groups grows by one exactly when no existing member of
any group matches the inserted item. -/
theorem insertExt_length {T : Type} (f : T → ExtensionIdentifier) (x : T) :
    ∀ acc : List (List T),
      (insertExt f x acc).length =
        if (joinGroups acc).any (fun e => areSameExtensions (f e) (f x)) then
          acc.length
        else acc.length + 1
  | [] => by simp [insertExt, joinGroups]
  | g :: gs => by
    rw [insertExt]
    by_cases hg : g.any (fun e => areSameExtensions (f e) (f x)) = true
    · rw [if_pos hg]
      have : (joinGroups (g :: gs)).any (fun e => areSameExtensions (f e) (f x)) = true := by
        show (g ++ joinGroups gs).any _ = true
        rw [List.any_append, hg, Bool.true_or]
      rw [this]
      rfl
    · rw [if_neg hg]
      have hgf : g.any (fun e => areSameExtensions (f e) (f x)) = false :=
        Bool.eq_false_iff.mpr hg
      have ih := insertExt_length f x gs
      have hjoin : (joinGroups (g :: gs)).any (fun e => areSameExtensions (f e) (f x)) =
          (joinGroups gs).any (fun e => areSameExtensions (f e) (f x)) := by
        show (g ++ joinGroups gs).any _ = _
        rw [List.any_append, hgf, Bool.false_or]
      rw [hjoin]
      by_cases hrest : (joinGroups gs).any (fun e => areSameExtensions (f e) (f x)) = true
      · rw [hrest] at ih ⊢
        simp only [if_pos, List.length_cons, ih]
      · have hrf : (joinGroups gs).any (fun e => areSameExtensions (f e) (f x)) = false :=
          Bool.eq_false_iff.mpr hrest
        rw [hrf] at ih ⊢
        simp only [List.length_cons, ih]
        rfl

/-- Invariant of the grouping fold: if the members of the accumulated groups
are (a permutation of) the already-seen items, folding the remaining items
extends the membership by those items and adds one group per remaining item
that matches no seen item. -/
theorem groupFold_spec {T : Type} (f : T → ExtensionIdentifier) :
    ∀ (xs : List T) (acc : List (List T)) (seen : List T),
      List.Perm (joinGroups acc) seen →
      List.Perm
        (joinGroups (List.foldl (fun a x => insertExt f x a) acc xs)) (seen ++ xs) ∧
      (List.foldl (fun a x => insertExt f x a) acc xs).length =
        acc.length + classCountAux f seen xs
  | [], acc, seen, hperm => by
    constructor
    · simpa using hperm
    · simp [classCountAux]
  | x :: xs, acc, seen, hperm => by
    have hins : List.Perm (joinGroups (insertExt f x acc)) (seen ++ [x]) :=
      (joinGroups_insertExt f x acc).trans (hperm.append_right [x])
    have ih := groupFold_spec f xs (insertExt f x acc) (seen ++ [x]) hins
    constructor
    · have := ih.1
      rwa [List.append_assoc, List.singleton_append] at this
    · show (List.foldl (fun a x => insertExt f x a) (insertExt f x acc) xs).length = _
      rw [ih.2, insertExt_length f x acc,
        perm_any hperm (fun e => areSameExtensions (f e) (f x))]
      show _ = acc.length + classCountAux f seen (x :: xs)
      rw [classCountAux]
      by_cases hs : seen.any (fun e => areSameExtensions (f e) (f x)) = true
      · rw [if_pos hs, if_pos hs]
        omega
      · have hsf := Bool.eq_false_iff.mpr hs
        rw [hsf]
        simp only [Bool.false_eq_true, if_false]
        omega

/-- C6 counterexample: the number of produced groups is not a function of
the input as a set: two permutations of the same three identifiers (two
distinct uuids plus one uuid-less identifier sharing the id) yield two
groups in one order and a single group in the other, so it cannot equal
"the number of distinct identity classes" of the inputs, which would be
order-independent. -/
theorem c6_counterexample :
    (groupByExtension [idA, idC, idB] (fun x => x)).length = 2 ∧
    (groupByExtension [idB, idA, idC] (fun x => x)).length = 1 ∧
    List.Perm [idA, idC, idB] [idB, idA, idC] := by
  decide

/-- C6 (amended): every input item lands in exactly one output group (the
concatenation of the groups is a permutation of the input), and the number
of groups equals the number of first representatives: items with no earlier
`areSameExtensions`-matching item.  Because `areSameExtensions` is not
transitive this count depends on the input order, so it is not in general a
count of equivalence classes. -/
theorem c6_grouping {T : Type} (l : List T) (f : T → ExtensionIdentifier) :
    List.Perm (joinGroups (groupByExtension l f)) l ∧
    (groupByExtension l f).length = classCount f l := by
  have h := groupFold_spec f l [] [] (by simp [joinGroups])
  exact ⟨by simpa using h.1, by simpa [classCount] using h.2⟩

/-- `digitRun` splits its input and its first component is all digits. -/
theorem digitRun_sound : ∀ t : Str,
    t = (digitRun t).1 ++ (digitRun t).2 ∧ (digitRun t).1.all Char.isDigit = true
  | [] => by simp [digitRun]
  | c :: cs => by
    rw [digitRun]
    by_cases hc : c.isDigit
    · have ih := digitRun_sound cs
      simp only [if_pos hc]
      constructor
      · show c :: cs = c :: ((digitRun cs).1 ++ (digitRun cs).2)
        rw [← ih.1]
      · simp [hc, ih.2]
    · simp [if_neg hc]

/-- Soundness of `splitFirstDot`: a successful split decomposes the input
at a dot whose prefix is dot-free. -/
theorem splitFirstDot_sound : ∀ (s pre rest : Str),
    splitFirstDot s = some (pre, rest) → s = pre ++ '.' :: rest ∧ '.' ∉ pre := by
  intro s
  induction s with
  | nil => intro pre rest h; simp [splitFirstDot] at h
  | cons c cs ih =>
    intro pre rest h
    rw [splitFirstDot] at h
    by_cases hc : c = '.'
    · rw [if_pos hc] at h
      obtain ⟨h1, h2⟩ := Prod.mk.injEq .. ▸ Option.some.injEq .. ▸ h
      subst h1
      subst h2
      simp [hc]
    · rw [if_neg hc] at h
      match h2 : splitFirstDot cs with
      | some (p1, p2) =>
        rw [h2] at h
        obtain ⟨h3, h4⟩ := Prod.mk.injEq .. ▸ Option.some.injEq .. ▸ h
        subst h3
        subst h4
        obtain ⟨he, hn⟩ := ih p1 p2 h2
        constructor
        · rw [List.cons_append, ← he]
        · intro hmem
          rcases List.mem_cons.mp hmem with h5 | h5
          · exact hc h5.symm
          · exact hn h5
      | none => rw [h2] at h; exact absurd h (by simp)

/-- Soundness of `dashSplits`: every listed split decomposes the input at a
dash. -/
theorem dashSplits_sound : ∀ (l : Str) (p : Str × Str),
    p ∈ dashSplits l → l = p.1 ++ '-' :: p.2 := by
  intro l
  induction l with
  | nil => intro p h; simp [dashSplits] at h
  | cons c cs ih =>
    intro p h
    rw [dashSplits] at h
    by_cases hc : c = '-'
    · rw [if_pos hc] at h
      rcases List.mem_cons.mp h with h1 | h1
      · subst h1; simp [hc]
      · obtain ⟨q, hq, hqe⟩ := List.mem_map.mp h1
        subst hqe
        have := ih q hq
        simp only []
        rw [List.cons_append]
        rw [← this]
    · rw [if_neg hc] at h
      obtain ⟨q, hq, hqe⟩ := List.mem_map.mp h
      subst hqe
      have := ih q hq
      simp only []
      rw [List.cons_append]
      rw [← this]

/-- Soundness of `pickGreedy`: a result comes from some listed split. -/
theorem pickGreedy_sound : ∀ (l : List (Str × Str)) (pre : Str)
    (r : Str × Str × Option Str), pickGreedy pre l = some r →
    ∃ p ∈ l, checkSplit pre p = some r := by
  intro l
  induction l with
  | nil => intro pre r h; simp [pickGreedy] at h
  | cons p rest ih =>
    intro pre r h
    rw [pickGreedy] at h
    match h2 : pickGreedy pre rest with
    | some r2 =>
      rw [h2] at h
      obtain ⟨q, hq, hce⟩ := ih pre r2 h2
      have : r2 = r := by simpa using h
      subst this
      exact ⟨q, List.mem_cons_of_mem p hq, hce⟩
    | none =>
      rw [h2] at h
      exact ⟨p, List.mem_cons_self p rest, h⟩

/-- Soundness of `checkSplit`: a successful check certifies the group-1
remainder conditions and a version-tail match. -/
theorem checkSplit_sound (pre : Str) (p : Str × Str) (g1 ver : Str)
    (plat : Option Str) (h : checkSplit pre p = some (g1, ver, plat)) :
    g1 = pre ++ '.' :: p.1 ∧ p.1 ≠ [] ∧ p.1.all jsDot = true ∧
      versionMatch p.2 = some (ver, plat) := by
  rw [checkSplit] at h
  split at h
  next hcond =>
    rw [Bool.and_eq_true_iff] at hcond
    match h2 : versionMatch p.2 with
    | some (v2, p2) =>
      rw [h2] at h
      simp only [Option.some.injEq, Prod.mk.injEq] at h
      obtain ⟨hg, hv, hp⟩ := h
      subst hg
      subst hv
      subst hp
      refine ⟨rfl, ?_, hcond.2, rfl⟩
      have := hcond.1
      simp only [Bool.not_eq_true'] at this
      simpa [List.isEmpty_iff] using this
    | none => rw [h2] at h; exact absurd h (by simp)
  next hcond => exact absurd h (by simp)

/-- Soundness of `versionMatch`: a successful match certifies the version
shape and the decomposition of the input tail. -/
theorem versionMatch_sound (t ver : Str) (plat : Option Str)
    (h : versionMatch t = some (ver, plat)) :
    VersionShape ver ∧
      ((plat = none ∧ t = ver) ∨
        ∃ g4 : Str, plat = some g4 ∧ t = ver ++ '-' :: g4 ∧ g4 ≠ [] ∧
          g4.all jsDot = true) := by
  have hsp := digitRun_sound t
  rw [versionMatch] at h
  split at h
  next => exact absurd h (by simp)
  next d1 r1 hne1 heq1 =>
    rw [heq1] at hsp
    simp only [] at hsp
    have hsp1 := digitRun_sound r1
    split at h
    next => exact absurd h (by simp)
    next d2 r2 hne2 heq2 =>
      rw [heq2] at hsp1
      simp only [] at hsp1
      have hsp2 := digitRun_sound r2
      split at h
      next => exact absurd h (by simp)
      next d3 hne3 heq3 =>
        rw [heq3] at hsp2
        simp only [] at hsp2
        simp only [Option.some.injEq, Prod.mk.injEq] at h
        obtain ⟨hv, hp⟩ := h
        subst hv
        subst hp
        have hr2 : r2 = d3 := by simpa using hsp2.1
        refine ⟨⟨d1, d2, d3, rfl, fun hh => hne1 hh, fun hh => hne2 hh,
          fun hh => hne3 hh, hsp.2, hsp1.2, hsp2.2⟩, Or.inl ⟨rfl, ?_⟩⟩
        rw [hsp.1, hsp1.1, hr2]
        simp [List.cons_append, List.append_assoc]
      next d3 g4 hne3 heq3 =>
        rw [heq3] at hsp2
        simp only [] at hsp2
        split at h
        next hcond =>
          rw [Bool.and_eq_true_iff] at hcond
          simp only [Option.some.injEq, Prod.mk.injEq] at h
          obtain ⟨hv, hp⟩ := h
          subst hv
          subst hp
          refine ⟨⟨d1, d2, d3, rfl, fun hh => hne1 hh, fun hh => hne2 hh,
            fun hh => hne3 hh, hsp.2, hsp1.2, hsp2.2⟩, Or.inr ⟨g4, rfl, ?_, ?_, hcond.2⟩⟩
          · rw [hsp.1, hsp1.1, hsp2.1]
            simp [List.append_assoc]
          · have := hcond.1
            simp only [Bool.not_eq_true'] at this
            simpa [List.isEmpty_iff] using this
        next _ => exact absurd h (by simp)
      next => exact absurd h (by simp)
    next => exact absurd h (by simp)
  next => exact absurd h (by simp)

/-- Soundness of the regex embedding: any successful match certifies that
the subject belongs to the pattern language. -/
theorem extensionKeyMatch_sound (s : Str) (r : Str × Str × Option Str)
    (h : extensionKeyMatch s = some r) : MatchesPattern s := by
  rw [extensionKeyMatch] at h
  split at h
  next => exact absurd h (by simp)
  next pre rest heq =>
    split at h
    next => exact absurd h (by simp)
    next hpre =>
      obtain ⟨hs, hnd⟩ := splitFirstDot_sound s pre rest heq
      obtain ⟨p, hp, hcs⟩ := pickGreedy_sound (dashSplits rest) pre r h
      obtain ⟨g1, ver, plat⟩ := r
      obtain ⟨hg1, hmid, hjs, hvm⟩ := checkSplit_sound pre p g1 ver plat hcs
      have hrest := dashSplits_sound rest p hp
      obtain ⟨hshape, htail⟩ := versionMatch_sound p.2 ver plat hvm
      have hprene : pre ≠ [] := by simpa [List.isEmpty_iff] using hpre
      rcases htail with ⟨hpn, hteq⟩ | ⟨g4, hps, hteq, hg4ne, hg4js⟩
      · refine ⟨pre, p.1, ver, [], ?_, hprene, hnd, hmid, hjs, hshape, Or.inl rfl⟩
        rw [hs, hrest, hteq]
        simp [List.append_assoc]
      · refine ⟨pre, p.1, ver, '-' :: g4, ?_, hprene, hnd, hmid, hjs, hshape,
          Or.inr ⟨g4, rfl, hg4ne, hg4js⟩⟩
        rw [hs, hrest, hteq]
        simp [List.append_assoc]

/-- Any word of the pattern language contains a dot. -/
theorem matchesPattern_has_dot (s : Str) (h : MatchesPattern s) : '.' ∈ s := by
  obtain ⟨pre, mid, ver, suffix, hs, _⟩ := h
  rw [hs]
  simp

/-- C5: `parse` is a total function (it never throws); every string outside
the language of the anchored pattern, in particular the dot-free
`not-a-version` and the version-less `pub.name`, parses to null. -/
theorem c5_parse_total_null_on_nonmatch :
    (∀ s : Str, ¬ MatchesPattern s → ExtensionKey.parse s = none) ∧
    ExtensionKey.parse ("not-a-version".toList) = none ∧
    ExtensionKey.parse ("pub.name".toList) = none := by
  refine ⟨?_, by decide, by decide⟩
  intro s hnm
  rw [ExtensionKey.parse]
  split
  next g1 g2 g4 heq => exact absurd (extensionKeyMatch_sound s (g1, g2, g4) heq) hnm
  next => rfl

/-- C5 witness: the general theorem applied to the concrete dot-free string
`nodots`, whose pattern-language membership is refuted. -/
theorem c5_witness :
    ¬ MatchesPattern ("nodots".toList) ∧
      ExtensionKey.parse ("nodots".toList) = none := by
  have hnm : ¬ MatchesPattern ("nodots".toList) := fun hc =>
    absurd (matchesPattern_has_dot _ hc) (by decide)
  exact ⟨hnm, c5_parse_total_null_on_nonmatch.1 _ hnm⟩

/-- `digitRun` consumes exactly a leading all-digit block when the remainder
does not start with a digit. -/
theorem digitRun_append (d r : Str) (hd : d.all Char.isDigit = true)
    (hr : ∀ c cs, r = c :: cs → c.isDigit = false) :
    digitRun (d ++ r) = (d, r) := by
  induction d with
  | nil =>
    simp only [List.nil_append]
    match r, hr with
    | [], _ => rfl
    | c :: cs, hr =>
      rw [digitRun, if_neg]
      simp [hr c cs rfl]
  | cons a d ih =>
    rw [List.cons_append, digitRun]
    rw [List.all_cons, Bool.and_eq_true_iff] at hd
    rw [if_pos hd.1]
    rw [ih hd.2]

/-- A string with no dash has no dash-splits. -/
theorem dashSplits_nodash : ∀ l : Str, '-' ∉ l → dashSplits l = [] := by
  intro l
  induction l with
  | nil => intro _; rfl
  | cons c cs ih =>
    intro h
    rw [dashSplits]
    have hc : ¬ c = '-' := fun hh => h (hh ▸ List.mem_cons_self c cs)
    rw [if_neg hc, ih (fun hh => h (List.mem_cons_of_mem c hh))]
    rfl

/-- `dashSplits` distributes over append: splits inside the first part come
first (with extended tails), then splits inside the second part (with
extended middles). -/
theorem dashSplits_append : ∀ xs ys : Str,
    dashSplits (xs ++ ys) =
      (dashSplits xs).map (fun p => (p.1, p.2 ++ ys)) ++
        (dashSplits ys).map (fun p => (xs ++ p.1, p.2)) := by
  intro xs ys
  induction xs with
  | nil => simp [dashSplits]
  | cons c cs ih =>
    rw [List.cons_append, dashSplits, dashSplits, ih]
    by_cases hc : c = '-'
    · rw [if_pos hc, if_pos hc]
      simp only [List.map_map, List.map_append, List.map_cons, List.cons_append]
      congr 1
    · rw [if_neg hc, if_neg hc]
      simp only [List.map_map, List.map_append, List.map_cons, List.cons_append]
      congr 1

/-- All-digit strings contain no dash. -/
theorem nodash_of_all_digit (d : Str) (hd : d.all Char.isDigit = true) :
    '-' ∉ d := by
  intro hmem
  have := (List.all_eq_true.mp hd) '-' hmem
  simp [Char.isDigit] at this

/-- A version-shaped string contains no dash. -/
theorem versionShape_nodash (d1 d2 d3 : Str)
    (ha1 : d1.all Char.isDigit = true) (ha2 : d2.all Char.isDigit = true)
    (ha3 : d3.all Char.isDigit = true) :
    '-' ∉ d1 ++ '.' :: (d2 ++ '.' :: d3) := by
  intro hmem
  rcases List.mem_append.mp hmem with h | h
  · exact nodash_of_all_digit d1 ha1 h
  · rcases List.mem_cons.mp h with h | h
    · simp at h
    · rcases List.mem_append.mp h with h | h
      · exact nodash_of_all_digit d2 ha2 h
      · rcases List.mem_cons.mp h with h | h
        · simp at h
        · exact nodash_of_all_digit d3 ha3 h

/-- `digitRun` consumes an entire all-digit string. -/
theorem digitRun_all (d : Str) (hd : d.all Char.isDigit = true) :
    digitRun d = (d, []) := by
  have := digitRun_append d [] hd (fun c cs h => by cases h)
  simpa using this

/-- `versionMatch` accepts a well-formed three-run version with no suffix
and captures it whole. -/
theorem versionMatch_nosuffix (d1 d2 d3 : Str)
    (h1 : d1 ≠ []) (h2 : d2 ≠ []) (h3 : d3 ≠ [])
    (ha1 : d1.all Char.isDigit = true) (ha2 : d2.all Char.isDigit = true)
    (ha3 : d3.all Char.isDigit = true) :
    versionMatch (d1 ++ '.' :: (d2 ++ '.' :: d3)) =
      some (d1 ++ '.' :: (d2 ++ '.' :: d3), none) := by
  have hdr1 : digitRun (d1 ++ '.' :: (d2 ++ '.' :: d3)) =
      (d1, '.' :: (d2 ++ '.' :: d3)) :=
    digitRun_append d1 _ ha1 (fun c cs h => by
      obtain ⟨hc, -⟩ := List.cons.injEq .. ▸ h
      rw [← hc]; decide)
  have hdr2 : digitRun (d2 ++ '.' :: d3) = (d2, '.' :: d3) :=
    digitRun_append d2 _ ha2 (fun c cs h => by
      obtain ⟨hc, -⟩ := List.cons.injEq .. ▸ h
      rw [← hc]; decide)
  have hdr3 : digitRun d3 = (d3, []) := digitRun_all d3 ha3
  rw [versionMatch]
  split
  next snd heq =>
    rw [hdr1] at heq
    simp only [Prod.mk.injEq] at heq
    exact absurd heq.1 h1
  next d1x r1x hne1 heq1 =>
    rw [hdr1] at heq1
    simp only [Prod.mk.injEq] at heq1
    obtain ⟨hd1x, hr1x⟩ := heq1
    subst d1x
    have hr1b : d2 ++ '.' :: d3 = r1x := by simpa using hr1x
    subst r1x
    split
    next snd heq =>
      rw [hdr2] at heq
      simp only [Prod.mk.injEq] at heq
      exact absurd heq.1 h2
    next d2x r2x hne2 heq2 =>
      rw [hdr2] at heq2
      simp only [Prod.mk.injEq] at heq2
      obtain ⟨hd2x, hr2x⟩ := heq2
      subst d2x
      have hr2b : d3 = r2x := by simpa using hr2x
      subst r2x
      split
      next snd heq =>
        rw [hdr3] at heq
        simp only [Prod.mk.injEq] at heq
        exact absurd heq.1 h3
      next d3x heq3 =>
        rw [hdr3] at heq3
        simp only [Prod.mk.injEq] at heq3
        rw [heq3.1]
        simp [List.cons_append, List.append_assoc]
      next d3x g4x heq3 =>
        rw [hdr3] at heq3
        simp only [Prod.mk.injEq] at heq3
        exact absurd heq3.2 (by simp)
      next hno1 hno2 hno3 =>
        exact absurd hdr3 (hno2 d3)
    next hno1 hno2 =>
      exact absurd hdr2 (hno2 d2 d3)
  next hno1 hno2 =>
    exact absurd hdr1 (hno2 d1 (d2 ++ '.' :: d3))

/-- `versionMatch` accepts a well-formed three-run version followed by a
dash and a platform tag, capturing the version and the tag. -/
theorem versionMatch_suffix (d1 d2 d3 g4 : Str)
    (h1 : d1 ≠ []) (h2 : d2 ≠ []) (h3 : d3 ≠ [])
    (ha1 : d1.all Char.isDigit = true) (ha2 : d2.all Char.isDigit = true)
    (ha3 : d3.all Char.isDigit = true)
    (hg : g4 ≠ []) (hjs : g4.all jsDot = true) :
    versionMatch (d1 ++ '.' :: (d2 ++ '.' :: (d3 ++ '-' :: g4))) =
      some (d1 ++ '.' :: (d2 ++ '.' :: d3), some g4) := by
  have hdr1 : digitRun (d1 ++ '.' :: (d2 ++ '.' :: (d3 ++ '-' :: g4))) =
      (d1, '.' :: (d2 ++ '.' :: (d3 ++ '-' :: g4))) :=
    digitRun_append d1 _ ha1 (fun c cs h => by
      obtain ⟨hc, -⟩ := List.cons.injEq .. ▸ h
      rw [← hc]; decide)
  have hdr2 : digitRun (d2 ++ '.' :: (d3 ++ '-' :: g4)) =
      (d2, '.' :: (d3 ++ '-' :: g4)) :=
    digitRun_append d2 _ ha2 (fun c cs h => by
      obtain ⟨hc, -⟩ := List.cons.injEq .. ▸ h
      rw [← hc]; decide)
  have hdr3 : digitRun (d3 ++ '-' :: g4) = (d3, '-' :: g4) :=
    digitRun_append d3 _ ha3 (fun c cs h => by
      obtain ⟨hc, -⟩ := List.cons.injEq .. ▸ h
      rw [← hc]; decide)
  rw [versionMatch]
  split
  next snd heq =>
    rw [hdr1] at heq
    simp only [Prod.mk.injEq] at heq
    exact absurd heq.1 h1
  next d1x r1x hne1 heq1 =>
    rw [hdr1] at heq1
    simp only [Prod.mk.injEq] at heq1
    obtain ⟨hd1x, hr1x⟩ := heq1
    subst d1x
    have hr1b : d2 ++ '.' :: (d3 ++ '-' :: g4) = r1x := by simpa using hr1x
    subst r1x
    split
    next snd heq =>
      rw [hdr2] at heq
      simp only [Prod.mk.injEq] at heq
      exact absurd heq.1 h2
    next d2x r2x hne2 heq2 =>
      rw [hdr2] at heq2
      simp only [Prod.mk.injEq] at heq2
      obtain ⟨hd2x, hr2x⟩ := heq2
      subst d2x
      have hr2b : d3 ++ '-' :: g4 = r2x := by simpa using hr2x
      subst r2x
      split
      next snd heq =>
        rw [hdr3] at heq
        simp only [Prod.mk.injEq] at heq
        exact absurd heq.1 h3
      next d3x heq3 =>
        rw [hdr3] at heq3
        simp only [Prod.mk.injEq] at heq3
        exact absurd heq3.2 (by simp)
      next d3a g4a hne3 heq3 =>
        rw [hdr3] at heq3
        simp only [Prod.mk.injEq] at heq3
        obtain ⟨hd3x, hg4x⟩ := heq3
        subst d3a
        have hg4b : g4 = g4a := by simpa using hg4x
        subst g4a
        rw [if_pos]
        · simp [List.cons_append, List.append_assoc]
        · rw [Bool.and_eq_true_iff]
          exact ⟨by simpa [List.isEmpty_iff] using hg, hjs⟩
      next hno1 hno2 hno3 =>
        exact absurd hdr3 (hno3 d3 g4)
    next hno1 hno2 =>
      exact absurd hdr2 (hno2 d2 (d3 ++ '-' :: g4))
  next hno1 hno2 =>
    exact absurd hdr1 (hno2 d1 (d2 ++ '.' :: (d3 ++ '-' :: g4)))

/-- `splitFirstDot` splits exactly at the first dot. -/
theorem splitFirstDot_append (pre rest : Str) (hnd : '.' ∉ pre) :
    splitFirstDot (pre ++ '.' :: rest) = some (pre, rest) := by
  induction pre with
  | nil =>
    rw [List.nil_append, splitFirstDot]
    simp
  | cons c cs ih =>
    rw [List.cons_append, splitFirstDot]
    have hc : ¬ c = '.' := fun hh => hnd (hh ▸ List.mem_cons_self c cs)
    rw [if_neg hc, ih (fun hh => hnd (List.mem_cons_of_mem c hh))]

/-- A hit in the later (longer) candidates wins in `pickGreedy`. -/
theorem pickGreedy_append_of_some (pre : Str) (l1 : List (Str × Str))
    {l2 : List (Str × Str)} {r : Str × Str × Option Str}
    (h : pickGreedy pre l2 = some r) :
    pickGreedy pre (l1 ++ l2) = some r := by
  induction l1 with
  | nil => simpa using h
  | cons p l1 ih =>
    rw [List.cons_append, pickGreedy, ih]

/-- If every candidate fails, `pickGreedy` fails. -/
theorem pickGreedy_none_of_all (pre : Str) :
    ∀ l : List (Str × Str), (∀ p ∈ l, checkSplit pre p = none) →
      pickGreedy pre l = none := by
  intro l
  induction l with
  | nil => intro _; rfl
  | cons p rest ih =>
    intro h
    rw [pickGreedy, ih (fun q hq => h q (List.mem_cons_of_mem p hq)),
      h p (List.mem_cons_self p rest)]

/-- A failing version tail makes the whole candidate fail. -/
theorem checkSplit_none_of_versionMatch_none (pre : Str) (p : Str × Str)
    (h : versionMatch p.2 = none) : checkSplit pre p = none := by
  rw [checkSplit]
  split
  · rw [h]
  · rfl

/-- A candidate with a good middle part and a matching version tail
succeeds. -/
theorem checkSplit_valid (pre : Str) (p : Str × Str) (ver : Str)
    (plat : Option Str) (hm : p.1 ≠ []) (hjs : p.1.all jsDot = true)
    (hvm : versionMatch p.2 = some (ver, plat)) :
    checkSplit pre p = some (pre ++ '.' :: p.1, ver, plat) := by
  rw [checkSplit, if_pos, hvm]
  rw [Bool.and_eq_true_iff]
  exact ⟨by simpa [List.isEmpty_iff] using hm, hjs⟩

/-- Every platform tag of the enumeration satisfies the round-trip
conditions. -/
theorem platOk_values : ∀ tp ∈ TargetPlatform.values, platOk tp = true := by
  decide

/-- Round-trip of the codec: a key with a regex-matchable dotted id, a
three-run numeric version and an enumerated platform tag parses back from
its rendering to exactly itself. -/
theorem parse_toString (k : ExtensionKey)
    (hid : ValidDottedId k.id) (hver : VersionShape k.version)
    (htp : k.targetPlatform ∈ TargetPlatform.values) :
    ExtensionKey.parse (ExtensionKey.toString k) = some k := by
  obtain ⟨kid, kver, ktp⟩ := k
  obtain ⟨pre, m, hkid, hpre, hnd, hm, hjs⟩ := hid
  obtain ⟨d1, d2, d3, hkv, h1, h2, h3, ha1, ha2, ha3⟩ := hver
  simp only [] at hkid hkv htp
  subst kid
  have hkv2 : kver = d1 ++ '.' :: (d2 ++ '.' :: d3) := by
    rw [hkv]
    simp [List.cons_append, List.append_assoc]
  clear hkv
  subst hkv2
  have hpre2 : pre.isEmpty = false := by
    simpa [List.isEmpty_iff] using hpre
  have hnodash : dashSplits (d1 ++ '.' :: (d2 ++ '.' :: d3)) = [] :=
    dashSplits_nodash _ (versionShape_nodash d1 d2 d3 ha1 ha2 ha3)
  by_cases hundef : ktp = TargetPlatform.UNDEFINED
  · subst ktp
    have hs : ExtensionKey.toString
        ⟨pre ++ '.' :: m, d1 ++ '.' :: (d2 ++ '.' :: d3), TargetPlatform.UNDEFINED⟩ =
        pre ++ '.' :: (m ++ '-' :: (d1 ++ '.' :: (d2 ++ '.' :: d3))) := by
      rw [ExtensionKey.toString]
      simp [List.cons_append, List.append_assoc]
    have hds : dashSplits (m ++ '-' :: (d1 ++ '.' :: (d2 ++ '.' :: d3))) =
        (dashSplits m).map
          (fun p => (p.1, p.2 ++ '-' :: (d1 ++ '.' :: (d2 ++ '.' :: d3)))) ++
          [(m, d1 ++ '.' :: (d2 ++ '.' :: d3))] := by
      rw [dashSplits_append, dashSplits, if_pos rfl, hnodash]
      simp
    have hck : checkSplit pre (m, d1 ++ '.' :: (d2 ++ '.' :: d3)) =
        some (pre ++ '.' :: m, d1 ++ '.' :: (d2 ++ '.' :: d3), none) :=
      checkSplit_valid pre _ _ none hm hjs
        (versionMatch_nosuffix d1 d2 d3 h1 h2 h3 ha1 ha2 ha3)
    have hpg : pickGreedy pre [(m, d1 ++ '.' :: (d2 ++ '.' :: d3))] =
        some (pre ++ '.' :: m, d1 ++ '.' :: (d2 ++ '.' :: d3), none) := by
      simp only [pickGreedy]
      rw [hck]
    have hmatch : extensionKeyMatch
        (pre ++ '.' :: (m ++ '-' :: (d1 ++ '.' :: (d2 ++ '.' :: d3)))) =
        some (pre ++ '.' :: m, d1 ++ '.' :: (d2 ++ '.' :: d3), none) := by
      rw [extensionKeyMatch, splitFirstDot_append pre _ hnd]
      simp only [hpre2, Bool.false_eq_true, if_false]
      rw [hds]
      exact pickGreedy_append_of_some pre _ hpg
    rw [hs, ExtensionKey.parse, hmatch]
  · have hpk := platOk_values ktp htp
    rw [platOk, Bool.and_eq_true_iff, Bool.and_eq_true_iff, Bool.and_eq_true_iff] at hpk
    obtain ⟨⟨⟨hpk1, hpk2⟩, hpk3⟩, hpk4⟩ := hpk
    have hktpne : ktp ≠ [] := by simpa [List.isEmpty_iff] using hpk1
    have hvmk : versionMatch ktp = none := by
      simpa [Option.isNone_iff_eq_none] using hpk3
    have hs : ExtensionKey.toString
        ⟨pre ++ '.' :: m, d1 ++ '.' :: (d2 ++ '.' :: d3), ktp⟩ =
        pre ++ '.' :: (m ++ '-' ::
          (d1 ++ '.' :: (d2 ++ '.' :: d3) ++ '-' :: ktp)) := by
      rw [ExtensionKey.toString]
      simp only []
      rw [if_neg hundef]
      simp [List.cons_append, List.append_assoc]
    have hdsX : dashSplits (d1 ++ '.' :: (d2 ++ '.' :: d3) ++ '-' :: ktp) =
        (d1 ++ '.' :: (d2 ++ '.' :: d3), ktp) ::
          (dashSplits ktp).map
            (fun p => (d1 ++ '.' :: (d2 ++ '.' :: d3) ++ '-' :: p.1, p.2)) := by
      rw [dashSplits_append, hnodash, dashSplits, if_pos rfl]
      simp [List.map_map, Function.comp, List.cons_append]
    have hds : dashSplits (m ++ '-' ::
        (d1 ++ '.' :: (d2 ++ '.' :: d3) ++ '-' :: ktp)) =
        (dashSplits m).map
          (fun p => (p.1, p.2 ++ '-' ::
            (d1 ++ '.' :: (d2 ++ '.' :: d3) ++ '-' :: ktp))) ++
        ((m, d1 ++ '.' :: (d2 ++ '.' :: d3) ++ '-' :: ktp) ::
          (dashSplits (d1 ++ '.' :: (d2 ++ '.' :: d3) ++ '-' :: ktp)).map
            (fun p => (m ++ '-' :: p.1, p.2))) := by
      rw [dashSplits_append, dashSplits, if_pos rfl]
      simp [List.map_map, Function.comp, List.cons_append]
    have hrest2 : pickGreedy pre
        ((dashSplits (d1 ++ '.' :: (d2 ++ '.' :: d3) ++ '-' :: ktp)).map
          (fun p => (m ++ '-' :: p.1, p.2))) = none := by
      apply pickGreedy_none_of_all
      intro p hp
      obtain ⟨q, hq, hqe⟩ := List.mem_map.mp hp
      rw [hdsX] at hq
      rcases List.mem_cons.mp hq with hq1 | hq1
      · subst hq1
        subst hqe
        exact checkSplit_none_of_versionMatch_none pre _ hvmk
      · obtain ⟨q2, hq2, hq2e⟩ := List.mem_map.mp hq1
        subst hq2e
        subst hqe
        apply checkSplit_none_of_versionMatch_none pre _
        have := (List.all_eq_true.mp hpk4) q2 hq2
        simpa [Option.isNone_iff_eq_none] using this
    have hvmX : versionMatch (d1 ++ '.' :: (d2 ++ '.' :: d3) ++ '-' :: ktp) =
        some (d1 ++ '.' :: (d2 ++ '.' :: d3), some ktp) := by
      have hX : d1 ++ '.' :: (d2 ++ '.' :: d3) ++ '-' :: ktp =
          d1 ++ '.' :: (d2 ++ '.' :: (d3 ++ '-' :: ktp)) := by
        simp [List.cons_append, List.append_assoc]
      rw [hX]
      exact versionMatch_suffix d1 d2 d3 ktp h1 h2 h3 ha1 ha2 ha3 hktpne hpk2
    have hck : checkSplit pre (m, d1 ++ '.' :: (d2 ++ '.' :: d3) ++ '-' :: ktp) =
        some (pre ++ '.' :: m, d1 ++ '.' :: (d2 ++ '.' :: d3), some ktp) :=
      checkSplit_valid pre _ _ (some ktp) hm hjs hvmX
    have hpg : pickGreedy pre
        ((m, d1 ++ '.' :: (d2 ++ '.' :: d3) ++ '-' :: ktp) ::
          (dashSplits (d1 ++ '.' :: (d2 ++ '.' :: d3) ++ '-' :: ktp)).map
            (fun p => (m ++ '-' :: p.1, p.2))) =
        some (pre ++ '.' :: m, d1 ++ '.' :: (d2 ++ '.' :: d3), some ktp) := by
      rw [pickGreedy, hrest2, hck]
    have hmatch : extensionKeyMatch (pre ++ '.' :: (m ++ '-' ::
        (d1 ++ '.' :: (d2 ++ '.' :: d3) ++ '-' :: ktp))) =
        some (pre ++ '.' :: m, d1 ++ '.' :: (d2 ++ '.' :: d3), some ktp) := by
      rw [extensionKeyMatch, splitFirstDot_append pre _ hnd]
      simp only [hpre2, Bool.false_eq_true, if_false]
      rw [hds]
      exact pickGreedy_append_of_some pre _ hpg
    rw [hs, ExtensionKey.parse, hmatch]

/-- C2 counterexample: two keys whose ids contain a dot and whose versions
are three numeric runs, with valid platform tags, for which
`parse(toString(key))` is null rather than a key equal to the original:
an id whose only dot is its first character, and an id with a
line-terminator after its first dot. -/
theorem c2_counterexample :
    ('.' ∈ kBad1.id ∧ VersionShape kBad1.version ∧
      kBad1.targetPlatform ∈ TargetPlatform.values ∧
      ExtensionKey.parse (ExtensionKey.toString kBad1) = none) ∧
    ('.' ∈ kBad2.id ∧ VersionShape kBad2.version ∧
      kBad2.targetPlatform ∈ TargetPlatform.values ∧
      ExtensionKey.parse (ExtensionKey.toString kBad2) = none) := by
  refine ⟨⟨by decide, ⟨['1'], ['2'], ['3'], by decide, by decide, by decide,
      by decide, by decide, by decide, by decide⟩, by decide, by decide⟩,
    ⟨by decide, ⟨['1'], ['2'], ['3'], by decide, by decide, by decide,
      by decide, by decide, by decide, by decide⟩, by decide, by decide⟩⟩

/-- C2 (amended): for every key whose id matches group 1 of the regex (its
first dot is preceded by at least one character and followed by at least one
character, and the part after the first dot is line-terminator free), whose
version is three dot-separated numeric runs and whose target platform is an
enumerated TargetPlatform value, `parse(toString(key))` returns a key equal
to the original under `equals`. -/
theorem c2_roundtrip (k : ExtensionKey)
    (hid : ValidDottedId k.id) (hver : VersionShape k.version)
    (htp : k.targetPlatform ∈ TargetPlatform.values) :
    ∃ kp, ExtensionKey.parse (ExtensionKey.toString k) = some kp ∧
      ExtensionKey.equals k kp = true := by
  refine ⟨k, parse_toString k hid hver htp, ?_⟩
  simp [ExtensionKey.equals, areSameExtensions, truthy]

/-- C2 witness: the amended round-trip applied to the key
`a.b` / `1.2.3` / `web`. -/
theorem c2_witness :
    ∃ kp, ExtensionKey.parse (ExtensionKey.toString
        ⟨"a.b".toList, "1.2.3".toList, "web".toList⟩) = some kp ∧
      ExtensionKey.equals ⟨"a.b".toList, "1.2.3".toList, "web".toList⟩ kp = true :=
  c2_roundtrip ⟨"a.b".toList, "1.2.3".toList, "web".toList⟩
    ⟨['a'], ['b'], by decide, by decide, by decide, by decide, by decide⟩
    ⟨['1'], ['2'], ['3'], by decide, by decide, by decide, by decide,
      by decide, by decide, by decide⟩
    (by decide)

/-- C8 counterexample: the empty dependency id is popped while not already
accepted and has exactly one installed match (an installed extension with
the empty id), yet the resolver appends nothing: the JavaScript truthiness
guard `if (id && ...)` drops a falsy (empty) id before the lookup. -/
theorem c8_counterexample :
    [emptyIdExt].filter
      (fun e => areSameExtensions e.identifier ⟨([] : Str), none⟩) = [emptyIdExt] ∧
    (([] : List Extension).all
      (fun e => !areSameExtensions e.identifier ⟨([] : Str), none⟩)) = true ∧
    getExtensionDependencies [emptyIdExt] rootEmptyDep = [] := by
  refine ⟨by decide, by decide, ?_⟩
  show depLoop [emptyIdExt] [[]] [] = []
  rw [depLoop_skip_guard [emptyIdExt] [] [] [] (by decide), depLoop_nil]
